import Mathlib

/-!
Verification development for the sparse-iteration-space lowering subsystem of
the simit tensor compiler, embedded from src/src/lower/index_expressions/loops.h.
The header declares the interface (IndexVariableLoop, TensorIndexVar,
SubsetLoop, createSubsetLoops); the SubsetLoop class is defined inline in the
header and is embedded from source, while the bodies that live in the missing
loops.cpp are modelled from the specification, as marked on each definition.
-/

set_option linter.unusedVariables false

/-- Variable of the embedded IR (simit ir::Var restricted to its name). -/
structure Var where
  name : String
deriving DecidableEq, Repr

/-- Tensor index handle: the coordinate (offset) array and sink array backing
variables, as exposed by TensorIndex.getCoordArray and TensorIndex.getSinkArray
(used in src/src/backend/gpu/gpu_backend.cpp lines 956 to 961). -/
structure TensorIndex where
  coordArray : Var
  sinkArray : Var
deriving DecidableEq, Repr

/-- Compound operator of stores. Modelled from the spec: ir.h is not under src;
the uses in src/src/backend/gpu/gpu_backend.cpp show the None and Add
alternatives. -/
inductive CompoundOperator where
  | None
  | Add
deriving DecidableEq, Repr

/-- Expression language of the embedded IR fragment: literals, variable reads,
array loads, addition and multiplication. Modelled from the spec: ir.h is not
under src; only the forms the lowering interface builds are embedded. -/
inductive Expr where
  | lit : Int → Expr
  | var : Var → Expr
  | load : Var → Expr → Expr
  | add : Expr → Expr → Expr
  | mul : Expr → Expr → Expr
deriving DecidableEq, Repr

/-- Statement fragment built by the lowering: binding a variable to an
expression. -/
inductive Stmt where
  | assign : Var → Expr → Stmt
deriving DecidableEq, Repr

/-- Runtime store: scalar values of variables, and array contents given as
total functions from integer positions to values. -/
structure Store where
  scalar : Var → Int
  array : Var → Int → Int

/-- Evaluation of embedded expressions in a store. -/
def Expr.eval (σ : Store) : Expr → Int
  | Expr.lit n => n
  | Expr.var v => σ.scalar v
  | Expr.load a i => σ.array a (Expr.eval σ i)
  | Expr.add a b => Expr.eval σ a + Expr.eval σ b
  | Expr.mul a b => Expr.eval σ a * Expr.eval σ b

/-- Execution of an embedded statement in a store. -/
def Stmt.exec (σ : Store) : Stmt → Store
  | Stmt.assign v e =>
    { scalar := fun w => if w = v then Expr.eval σ e else σ.scalar w
      array := σ.array }

/-- Index variable: name, static domain size and the free/reduction tag. -/
structure IndexVar where
  name : String
  domainSize : Nat
  reduction : Bool
deriving DecidableEq, Repr

/-- Index variable loop (loops.h lines 17 to 34): either independent or linked
to a parent loop. Modelled from the spec: the constructors are only declared in
loops.h, their bodies live in the missing loops.cpp. -/
inductive IndexVariableLoop where
  | base (indexVar : IndexVar)
  | linked (indexVar : IndexVar) (parent : IndexVariableLoop)
deriving DecidableEq, Repr

/-- Accessor for the wrapped index variable (loops.h line 23). -/
def IndexVariableLoop.getIndexVar : IndexVariableLoop → IndexVar
  | IndexVariableLoop.base iv => iv
  | IndexVariableLoop.linked iv _ => iv

/-- Generated induction variable of the loop, named after the index variable
(the example in loops.h lines 41 to 47 uses i and j). Modelled from the spec. -/
def IndexVariableLoop.getInductionVar (l : IndexVariableLoop) : Var :=
  Var.mk l.getIndexVar.name

/-- Whether the loop was constructed with a parent loop (loops.h line 26).
Modelled from the spec. -/
def IndexVariableLoop.isLinked : IndexVariableLoop → Bool
  | IndexVariableLoop.base _ => false
  | IndexVariableLoop.linked _ _ => true

/-- Modelled from the spec: getLinkedLoop is only declared in loops.h line 27
and its body lives in the missing loops.cpp; querying the parent of an unlinked
loop is a compiler-contract violation that aborts with a diagnostic, modelled
as an error result, never a valid loop. -/
def IndexVariableLoop.getLinkedLoop : IndexVariableLoop → Except String IndexVariableLoop
  | IndexVariableLoop.base _ => Except.error "getLinkedLoop called on an unlinked loop"
  | IndexVariableLoop.linked _ p => Except.ok p

/-- Tensor index variable (loops.h lines 52 to 76), with exactly the fields of
the header: source variable, coordinate variable, sink variable and the backing
tensor index. -/
structure TensorIndexVar where
  sourceVar : Var
  coordinateVar : Var
  sinkVar : Var
  tensorIndex : TensorIndex
deriving DecidableEq, Repr

/-- Constructor of TensorIndexVar (loops.h lines 54 and 55). Modelled from the
spec and the header example (loops.h lines 41 to 47): for induction variable
name j, tensor name A and source variable i, the coordinate variable is ijA and
the sink variable is jA. -/
def TensorIndexVar.make (inductionVarName tensorName : String) (sourceVar : Var)
    (tensorIndex : TensorIndex) : TensorIndexVar :=
  { sourceVar := sourceVar
    coordinateVar := Var.mk (sourceVar.name ++ inductionVarName ++ tensorName)
    sinkVar := Var.mk (inductionVarName ++ tensorName)
    tensorIndex := tensorIndex }

/-- Modelled from the spec: the body of loadCoordinate (loops.h line 63) lives
in the missing loops.cpp. The read position is keyed by the source value: the
evaluation documented in loops.h lines 41 to 43 binds the coordinate variable
to coordArray[source], so reading the coordinate array at source plus offset
with offset 1 gives coordArray[source + 1], the exclusive end of the current
neighbor range of the offset array invariant. -/
def TensorIndexVar.loadCoordinate (t : TensorIndexVar) (offset : Int) : Expr :=
  if offset = 0 then Expr.load t.tensorIndex.coordArray (Expr.var t.sourceVar)
  else Expr.load t.tensorIndex.coordArray (Expr.add (Expr.var t.sourceVar) (Expr.lit offset))

/-- Modelled from the spec: read the sink array at the position held by the
coordinate variable (loops.h line 64, body in the missing loops.cpp). -/
def TensorIndexVar.loadSink (t : TensorIndexVar) : Expr :=
  Expr.load t.tensorIndex.sinkArray (Expr.var t.coordinateVar)

/-- Modelled from the spec: bind the coordinate variable to
coordinate-array[source value] (loops.h line 65, body in the missing
loops.cpp). -/
def TensorIndexVar.initCoordinateVar (t : TensorIndexVar) : Stmt :=
  Stmt.assign t.coordinateVar (t.loadCoordinate 0)

/-- Modelled from the spec: bind the default sink variable to
sink-array[coordinate variable] (loops.h line 66, body in the missing
loops.cpp). -/
def TensorIndexVar.initSinkVar (t : TensorIndexVar) : Stmt :=
  Stmt.assign t.sinkVar t.loadSink

/-- Modelled from the spec: bind the given sink variable to
sink-array[coordinate variable] (loops.h line 67, body in the missing
loops.cpp). -/
def TensorIndexVar.initSinkVarWith (t : TensorIndexVar) (v : Var) : Stmt :=
  Stmt.assign v t.loadSink

/-- Subset loop, embedded from source: loops.h lines 78 to 105 define the class
inline, with the compound operator member defaulting to None (line 101). -/
structure SubsetLoop where
  tensorIndexVars : List TensorIndexVar
  cop : CompoundOperator
  computeExpr : Expr
  indexExpr : Expr
deriving DecidableEq, Repr

/-- Constructor of SubsetLoop, embedded from source (loops.h lines 80 to 83):
stores the tensor index variables and the two expressions; the compound
operator starts at its member default None. -/
def SubsetLoop.make (tensorIndexVars : List TensorIndexVar)
    (computeExpr indexExpr : Expr) : SubsetLoop :=
  { tensorIndexVars := tensorIndexVars
    cop := CompoundOperator.None
    computeExpr := computeExpr
    indexExpr := indexExpr }

/-- Embedded from source (loops.h line 85): replace the compound operator. -/
def SubsetLoop.setCompoundOperator (sl : SubsetLoop) (cop : CompoundOperator) : SubsetLoop :=
  { sl with cop := cop }

/-- Embedded from source (loops.h lines 87 to 89). -/
def SubsetLoop.getTensorIndexVars (sl : SubsetLoop) : List TensorIndexVar :=
  sl.tensorIndexVars

/-- Embedded from source (loops.h line 91). -/
def SubsetLoop.getCompoundOperator (sl : SubsetLoop) : CompoundOperator :=
  sl.cop

/-- Embedded from source (loops.h line 93). -/
def SubsetLoop.getComputeExpression (sl : SubsetLoop) : Expr :=
  sl.computeExpr

/-- Embedded from source (loops.h line 95). -/
def SubsetLoop.getIndexExpression (sl : SubsetLoop) : Expr :=
  sl.indexExpr

/-- Operand access of an index expression under the current index variable.
Modelled from the spec: an access is dense or sparse, a sparse access is backed
by a tensor index. -/
structure Access where
  tensor : String
  tindex : Option TensorIndex
deriving DecidableEq, Repr

/-- Whether the access is sparse, that is, backed by a tensor index. -/
def Access.isSparse (a : Access) : Bool := a.tindex.isSome

/-- Placeholder tensor index used only to totalize the projection below. -/
def defaultTensorIndex : TensorIndex := TensorIndex.mk (Var.mk "") (Var.mk "")

/-- The backing tensor index of an access (meaningful for sparse accesses). -/
def Access.tensorIndexOf (a : Access) : TensorIndex := a.tindex.getD defaultTensorIndex

/-- One term of an index expression: a product of operand accesses. -/
abbrev Term := List Access

/-- Index expression shape under the current index variable. Modelled from the
spec: a sum of terms, each term a product of operand reads. -/
structure IndexExpr where
  terms : List Term
deriving DecidableEq, Repr

/-- All operand accesses of the expression, in order of appearance. -/
def allAccesses (e : IndexExpr) : List Access := e.terms.flatten

/-- The sparse operand accesses sharing the current index variable, first
appearance order, duplicates removed. -/
def sparseAccessList (e : IndexExpr) : List Access :=
  ((allAccesses e).filter (fun a => a.isSparse)).dedup

/-- Source variable used to key the coordinate lookups of the merge: the parent
induction variable when the loop is linked (spec section 4.3 step 4), else the
own induction variable. Modelled from the spec. -/
def IndexVariableLoop.mergeSourceVar : IndexVariableLoop → Var
  | IndexVariableLoop.base iv => Var.mk iv.name
  | IndexVariableLoop.linked _ p => p.getInductionVar

/-- Tensor index variable built for one sparse access under the given loop,
keyed by the merge source variable. Modelled from the spec. -/
def mkCursor (loop : IndexVariableLoop) (a : Access) : TensorIndexVar :=
  TensorIndexVar.make loop.getInductionVar.name a.tensor loop.mergeSourceVar a.tensorIndexOf

/-- Product of the operand reads of one term, each read addressed at the
unified (merged) sink position held by the induction variable. Modelled from
the spec. -/
def renderTerm (iv : Var) (t : Term) : Expr :=
  t.foldr (fun a acc => Expr.mul (Expr.load (Var.mk a.tensor) (Expr.var iv)) acc) (Expr.lit 1)

/-- Sum of the rendered terms. Modelled from the spec. -/
def renderSum (iv : Var) (ts : List Term) : Expr :=
  ts.foldr (fun t acc => Expr.add (renderTerm iv t) acc) (Expr.lit 0)

/-- The sparse accesses a term requires. -/
def requiredSparse (t : Term) : List Access := t.filter (fun a => a.isSparse)

/-- Whether every sparse operand the term requires is among the given tensor
names, so the term may be computed inside the subset loop for that subset. -/
def coveredBy (t : Term) (names : List String) : Bool :=
  (requiredSparse t).all (fun a => decide (a.tensor ∈ names))

/-- All non-empty subsets of the sparse accesses, in the fixed shape-dependent
order given by List.sublists. -/
def nonEmptySublists (l : List Access) : List (List Access) :=
  l.sublists.filter (fun S => decide (S ≠ []))

/-- First-writer-stores, rest-accumulate: the first emitted subset loop keeps
the plain store (the fresh default None) and every later one accumulates. -/
def assignCompoundOps : List SubsetLoop → List SubsetLoop
  | [] => []
  | sl :: ls => sl :: ls.map (fun l => l.setCompoundOperator CompoundOperator.Add)

/-- The subset loop emitted for one subset S of the sparse accesses: it carries
the tensor index variables of S, the compute expression restricted to the terms
all of whose sparse operands lie in S, and the output index expression at the
merged sink position. Modelled from the spec (factored body of
createSubsetLoops). -/
def subsetLoopFor (e : IndexExpr) (loop : IndexVariableLoop) (S : List Access) : SubsetLoop :=
  SubsetLoop.make (S.map (mkCursor loop))
    (renderSum loop.getInductionVar
      (e.terms.filter (fun t => coveredBy t (S.map Access.tensor))))
    (Expr.var loop.getInductionVar)

/-- Modelled from the spec: createSubsetLoops is declared in loops.h lines 108
to 110 and its body lives in the missing loops.cpp. Following spec section 4.3:
with no sparse operand sharing the variable, one dense subset loop with no
tensor index variables computing the full term sum; otherwise one subset loop
per non-empty subset of the sparse cursors, in a fixed shape-dependent order,
each carrying the tensor index variables of its subset, a compute expression
restricted to the terms all of whose sparse operands are present in the
subset, and an index expression addressing the output at the merged sink
position; compound operators are first-writer-stores, rest-accumulate. The
environment parameter of the declared signature only accumulates declarations
and is not modelled. -/
def createSubsetLoops (e : IndexExpr) (loop : IndexVariableLoop) : List SubsetLoop :=
  let iv := loop.getInductionVar
  let sOps := sparseAccessList e
  if sOps = [] then
    [SubsetLoop.make [] (renderSum iv e.terms) (Expr.var iv)]
  else
    assignCompoundOps ((nonEmptySublists sOps).map (subsetLoopFor e loop))

/-- Runtime operand data for one lowering, at a fixed value of the parent
source: logical value of each tensor at each coordinate, and the neighbor set
of the current source value for each tensor index. -/
structure Data where
  vals : String → Nat → Int
  nbrs : TensorIndex → List Nat

/-- The cursors of the multiway merge for this expression: one tensor index
variable per sparse access. -/
def expressionCursors (e : IndexExpr) (loop : IndexVariableLoop) : List TensorIndexVar :=
  (sparseAccessList e).map (mkCursor loop)

/-- Modelled from the spec: in the sorted multiway merge a cursor stands at
coordinate j exactly when j is a neighbor of the current source value in its
tensor index. -/
def cursorAt (d : Data) (j : Nat) (t : TensorIndexVar) : Bool :=
  decide (j ∈ d.nbrs t.tensorIndex)

/-- Modelled from the spec: a subset loop executes at coordinate j exactly when
the cursors standing at j, among the expression cursors U, are precisely its
own tensor index variables; the dense subset loop (no cursors, empty U)
executes at every coordinate of the static domain. -/
def SubsetLoop.visitsAt (sl : SubsetLoop) (U : List TensorIndexVar) (d : Data) (j : Nat) : Bool :=
  decide (sl.tensorIndexVars = U.filter (cursorAt d j))

/-- Store seen by the body of a subset loop at coordinate j: the merged
induction variable holds j and each tensor name addresses its value array. -/
def storeAt (d : Data) (iv : Var) (j : Nat) : Store :=
  { scalar := fun v => if v = iv then (j : Int) else 0
    array := fun v i => d.vals v.name i.toNat }

/-- Contribution of one subset loop: the sum, over the coordinates of the
static domain it visits, of its compute expression. -/
def SubsetLoop.loopSum (sl : SubsetLoop) (U : List TensorIndexVar) (d : Data)
    (iv : Var) (n : Nat) : Int :=
  Finset.sum (Finset.range n) (fun j =>
    if sl.visitsAt U d j then Expr.eval (storeAt d iv j) sl.computeExpr else 0)

/-- Combining a loop contribution with the output location under a compound
operator: None overwrites, Add accumulates. -/
def applyCompound : CompoundOperator → Int → Int → Int
  | CompoundOperator.None, _, v => v
  | CompoundOperator.Add, acc, v => acc + v

/-- Modelled from the spec: sequential execution of the subset loops into one
output location, each loop combining its contribution with its compound
operator. -/
def runLoops (U : List TensorIndexVar) (d : Data) (iv : Var) (n : Nat) :
    List SubsetLoop → Int → Int
  | [], acc => acc
  | sl :: ls, acc => runLoops U d iv n ls (applyCompound sl.cop acc (sl.loopSum U d iv n))

/-- Logical value of one operand access at coordinate j: a sparse operand
contributes zero outside the neighbor set of the current source value. -/
def maskedVal (d : Data) (a : Access) (j : Nat) : Int :=
  if a.isSparse = true ∧ j ∉ d.nbrs a.tensorIndexOf then 0 else d.vals a.tensor j

/-- Direct unoptimized evaluation of the index expression: for every value of
the index variable in its full static domain, the sum over all terms of the
product of the logical operand values. -/
def directEval (e : IndexExpr) (d : Data) (n : Nat) : Int :=
  Finset.sum (Finset.range n) (fun j =>
    (e.terms.map (fun t => (t.map (fun a => maskedVal d a j)).prod)).sum)

/-- Number of subset loops that execute at coordinate j. -/
def visitCount (ls : List SubsetLoop) (U : List TensorIndexVar) (d : Data) (j : Nat) : Nat :=
  (ls.map (fun sl => if sl.visitsAt U d j then 1 else 0)).sum

/-- The sparse accesses whose cursor stands at coordinate j. -/
def presenceList (e : IndexExpr) (d : Data) (j : Nat) : List Access :=
  (sparseAccessList e).filter (fun a => decide (j ∈ d.nbrs a.tensorIndexOf))

/-- Well-formedness of the expression: accesses naming the same tensor agree,
so one tensor name denotes one operand. -/
abbrev AccessesConsistent (e : IndexExpr) : Prop :=
  ∀ a ∈ allAccesses e, ∀ b ∈ allAccesses e, a.tensor = b.tensor → a = b

/-- Backing contents of one tensor index: offset/coordinate array and sink
array (spec section 3). -/
structure TensorIndexData where
  coords : List Nat
  sinks : List Nat
deriving DecidableEq, Repr

/-- Neighbor list of source s: the sink array slice from coords[s] inclusive to
coords[s + 1] exclusive. -/
def TensorIndexData.neighbors (tid : TensorIndexData) (s : Nat) : List Nat :=
  (tid.sinks.drop (tid.coords.getD s 0)).take (tid.coords.getD (s + 1) 0 - tid.coords.getD s 0)

/-- Concrete tensor index handle used in witnesses. -/
def tiA : TensorIndex := TensorIndex.mk (Var.mk "A_coords") (Var.mk "A_sinks")

/-- Concrete tensor index variable (A.row2col, i) -> (ijA, jA), as in the
header example. -/
def tivA6 : TensorIndexVar := TensorIndexVar.make "j" "A" (Var.mk "i") tiA

/-- Concrete tensor index contents from spec section 8 scenario 1: offset array
[0, 2, 3, 5], sink array [1, 2, 0, 0, 2]. -/
def tidA : TensorIndexData := TensorIndexData.mk [0, 2, 3, 5] [1, 2, 0, 0, 2]

/-- Concrete store: the source variable i holds 1 and the coordinate variable
ijA holds coordArray[1] = 2, consistently initialized; the two backing arrays
hold the contents of tidA. -/
def store6 : Store :=
  { scalar := fun v => if v = Var.mk "i" then 1 else if v = Var.mk "ijA" then 2 else 0
    array := fun v i =>
      if v = Var.mk "A_coords" then ((tidA.coords.getD i.toNat 0 : Nat) : Int)
      else if v = Var.mk "A_sinks" then ((tidA.sinks.getD i.toNat 0 : Nat) : Int)
      else 0 }

/-- C6 counterexample: loadCoordinate does not read the coordinate array at
position (coordinate variable + offset). At source value 1 with offset array
[0, 2, 3, 5], the coordinate variable holds 2; a read at (coordinate variable
+ 1) would give coordArray[3] = 5, while the exclusive end of the current
neighbor range is coordArray[source + 1] = coordArray[2] = 3, which is what
the built expression evaluates to. -/
theorem claimC6_counterexample :
    (tivA6.loadCoordinate 1
      ≠ Expr.load tivA6.tensorIndex.coordArray
          (Expr.add (Expr.var tivA6.coordinateVar) (Expr.lit 1)))
    ∧ Expr.eval store6 (Expr.load tivA6.tensorIndex.coordArray
        (Expr.add (Expr.var tivA6.coordinateVar) (Expr.lit 1))) = 5
    ∧ ((tidA.coords.getD (1 + 1) 0 : Nat) : Int) = 3
    ∧ Expr.eval store6 (tivA6.loadCoordinate 1) = 3 :=
  ⟨by decide, by decide, by decide, by decide⟩

/-- C6 amended: for every TensorIndexVar and nonzero integer offset, the
expression built by loadCoordinate(offset) reads the coordinate array of the
tensor index at position (source variable + offset), and loadCoordinate(1)
evaluates to the exclusive end of the neighbor range of the current source
value. -/
theorem claimC6amended (t : TensorIndexVar) (offset : Int) (σ : Store)
    (tid : TensorIndexData) (s : Nat) (hoff : offset ≠ 0)
    (hc : ∀ i : Int, σ.array t.tensorIndex.coordArray i = ((tid.coords.getD i.toNat 0 : Nat) : Int))
    (hs : σ.scalar t.sourceVar = (s : Int)) :
    t.loadCoordinate offset
      = Expr.load t.tensorIndex.coordArray (Expr.add (Expr.var t.sourceVar) (Expr.lit offset))
    ∧ Expr.eval σ (t.loadCoordinate 1) = ((tid.coords.getD (s + 1) 0 : Nat) : Int) := by
  constructor
  · simp [TensorIndexVar.loadCoordinate, hoff]
  · have h1 : ((s : Int) + 1).toNat = s + 1 := by omega
    simp [TensorIndexVar.loadCoordinate, Expr.eval, hs, hc, h1]

/-- C6 amended witness at the concrete inputs of the counterexample. -/
theorem claimC6amended_witness :
    tivA6.loadCoordinate 1
      = Expr.load tivA6.tensorIndex.coordArray
          (Expr.add (Expr.var tivA6.sourceVar) (Expr.lit 1))
    ∧ Expr.eval store6 (tivA6.loadCoordinate 1) = ((tidA.coords.getD (1 + 1) 0 : Nat) : Int) :=
  claimC6amended tivA6 1 store6 tidA 1 (by decide) (fun i => rfl) rfl

/-- C7: the derivation (tensorIndex, sourceVar) -> (coordinateVar, sinkVar)
holds: initCoordinateVar binds coordinateVar to coordinate-array[source value],
initSinkVar (default or given variable) binds the sink variable to
sink-array[coordinateVar], loadSink reads the sink array at the position held
by the coordinate variable; executing the two bindings in a store realizing
the tensor index contents leaves the coordinate variable at the start of the
neighbor range coords[s] and the sink variable at sinks[coords[s]]. -/
theorem claimC7 (t : TensorIndexVar) (σ : Store) (tid : TensorIndexData) (s : Nat)
    (hc : ∀ i : Int, σ.array t.tensorIndex.coordArray i = ((tid.coords.getD i.toNat 0 : Nat) : Int))
    (hk : ∀ i : Int, σ.array t.tensorIndex.sinkArray i = ((tid.sinks.getD i.toNat 0 : Nat) : Int))
    (hs : σ.scalar t.sourceVar = (s : Int)) :
    t.initCoordinateVar
      = Stmt.assign t.coordinateVar (Expr.load t.tensorIndex.coordArray (Expr.var t.sourceVar))
    ∧ t.initSinkVar
      = Stmt.assign t.sinkVar (Expr.load t.tensorIndex.sinkArray (Expr.var t.coordinateVar))
    ∧ (∀ v : Var, t.initSinkVarWith v
      = Stmt.assign v (Expr.load t.tensorIndex.sinkArray (Expr.var t.coordinateVar)))
    ∧ t.loadSink = Expr.load t.tensorIndex.sinkArray (Expr.var t.coordinateVar)
    ∧ (Stmt.exec σ t.initCoordinateVar).scalar t.coordinateVar
      = ((tid.coords.getD s 0 : Nat) : Int)
    ∧ (Stmt.exec (Stmt.exec σ t.initCoordinateVar) t.initSinkVar).scalar t.sinkVar
      = ((tid.sinks.getD (tid.coords.getD s 0) 0 : Nat) : Int) := by
  have hsn : ((s : Int)).toNat = s := by omega
  have hcv : (Stmt.exec σ t.initCoordinateVar).scalar t.coordinateVar
      = ((tid.coords.getD s 0 : Nat) : Int) := by
    simp [Stmt.exec, TensorIndexVar.initCoordinateVar, TensorIndexVar.loadCoordinate,
      Expr.eval, hc, hs, hsn]
  refine ⟨rfl, rfl, fun v => rfl, rfl, hcv, ?_⟩
  have hn2 : ((tid.coords.getD s 0 : Nat) : Int).toNat = tid.coords.getD s 0 := by omega
  simp [TensorIndexVar.initSinkVar, TensorIndexVar.loadSink, TensorIndexVar.initCoordinateVar,
    TensorIndexVar.loadCoordinate, Stmt.exec, Expr.eval, hc, hk, hs, hsn, hn2]

/-- C7 witness at the concrete store: the coordinate variable ends at
coords[1] = 2 and the sink variable at sinks[2] = 0. -/
theorem claimC7_witness :
    (Stmt.exec store6 tivA6.initCoordinateVar).scalar tivA6.coordinateVar = 2
    ∧ (Stmt.exec (Stmt.exec store6 tivA6.initCoordinateVar) tivA6.initSinkVar).scalar
        tivA6.sinkVar = 0 := by
  have h := claimC7 tivA6 store6 tidA 1 (fun i => rfl) (fun i => rfl) rfl
  exact ⟨h.2.2.2.2.1.trans (by decide), h.2.2.2.2.2.trans (by decide)⟩

/-- C9: isLinked returns true exactly when the loop was constructed with a
parent loop, and getLinkedLoop on an unlinked loop is a contract violation
yielding a diagnostic error and never a valid loop, while on a linked loop it
returns the parent. -/
theorem claimC9 (l : IndexVariableLoop) :
    (l.isLinked = true ↔ ∃ iv p, l = IndexVariableLoop.linked iv p)
    ∧ (l.isLinked = false → ∃ msg, l.getLinkedLoop = Except.error msg)
    ∧ (∀ iv p, l = IndexVariableLoop.linked iv p → l.getLinkedLoop = Except.ok p) := by
  cases l with
  | base iv =>
    refine ⟨⟨fun h => by simp [IndexVariableLoop.isLinked] at h, ?_⟩, fun _ => ⟨_, rfl⟩, ?_⟩
    · rintro ⟨iv2, p, h⟩; cases h
    · intro iv2 p h; cases h
  | linked iv p =>
    refine ⟨⟨fun _ => ⟨iv, p, rfl⟩, fun _ => rfl⟩, fun h => ?_, ?_⟩
    · simp [IndexVariableLoop.isLinked] at h
    · intro iv2 p2 h; cases h; rfl

/-- Concrete unlinked loop over the index variable i. -/
def loopI : IndexVariableLoop := IndexVariableLoop.base (IndexVar.mk "i" 3 false)

/-- Concrete loop over the reduction index variable j, linked to the loop
over i. -/
def loopJ : IndexVariableLoop := IndexVariableLoop.linked (IndexVar.mk "j" 3 true) loopI

/-- C9 witness: the concrete linked loop reports linked and yields its parent;
the concrete unlinked loop yields a diagnostic error. -/
theorem claimC9_witness :
    loopJ.isLinked = true ∧ loopJ.getLinkedLoop = Except.ok loopI
    ∧ (∃ msg, loopI.getLinkedLoop = Except.error msg) :=
  ⟨(claimC9 loopJ).1.mpr ⟨_, _, rfl⟩, (claimC9 loopJ).2.2 _ _ rfl, (claimC9 loopI).2.1 rfl⟩

/-- C10: a freshly constructed SubsetLoop has compound operator None and its
getters return exactly the constructor arguments; setCompoundOperator changes
only the compound operator, leaving the tensor index variables, the compute
expression and the index expression unchanged. -/
theorem claimC10 (tivs : List TensorIndexVar) (c i : Expr) (cop : CompoundOperator)
    (sl : SubsetLoop) :
    (SubsetLoop.make tivs c i).getCompoundOperator = CompoundOperator.None
    ∧ (SubsetLoop.make tivs c i).getTensorIndexVars = tivs
    ∧ (SubsetLoop.make tivs c i).getComputeExpression = c
    ∧ (SubsetLoop.make tivs c i).getIndexExpression = i
    ∧ (sl.setCompoundOperator cop).getCompoundOperator = cop
    ∧ (sl.setCompoundOperator cop).getTensorIndexVars = sl.getTensorIndexVars
    ∧ (sl.setCompoundOperator cop).getComputeExpression = sl.getComputeExpression
    ∧ (sl.setCompoundOperator cop).getIndexExpression = sl.getIndexExpression :=
  ⟨rfl, rfl, rfl, rfl, rfl, rfl, rfl, rfl⟩

/-- Summing an indicator-like map over a duplicate-free list: only the unique
match contributes. -/
lemma sum_map_ite_unique {α M : Type} [DecidableEq α] [AddCommMonoid M]
    (l : List α) (hl : l.Nodup) (a : α) (g : α → M) :
    (l.map (fun x => if x = a then g x else 0)).sum = if a ∈ l then g a else 0 := by
  induction l with
  | nil => simp
  | cons x xs ih =>
    rcases List.nodup_cons.mp hl with ⟨hx, hnd⟩
    by_cases hxa : x = a
    · subst hxa
      simp only [List.map_cons, List.sum_cons, if_pos rfl, ih hnd, List.mem_cons]
      simp [hx]
    · simp only [List.map_cons, List.sum_cons, if_neg hxa, ih hnd, List.mem_cons]
      simp [Ne.symm hxa]

/-- Filtering commutes with mapping when the predicate factors through the
map. -/
lemma map_filter_comm {α β : Type} (f : α → β) (q : β → Bool) (l : List α) :
    (l.filter (fun a => q (f a))).map f = (l.map f).filter q := by
  induction l with
  | nil => rfl
  | cons x xs ih =>
    by_cases h : q (f x) = true <;> simp [List.filter_cons, h, ih]

/-- A sublist whose image is the filtered image of a duplicate-free image list
is the corresponding filtered sublist. -/
lemma sublist_map_filter_eq {α β : Type} [DecidableEq α] [DecidableEq β]
    (f : α → β) (q : β → Bool) :
    ∀ (l S : List α), List.Sublist S l → (l.map f).Nodup →
      S.map f = (l.map f).filter q → S = l.filter (fun a => q (f a)) := by
  intro l
  induction l with
  | nil =>
    intro S hS _ h
    simp [List.sublist_nil.mp hS]
  | cons x xs ih =>
    intro S hS hnd h
    rw [List.map_cons] at hnd
    rcases List.nodup_cons.mp hnd with ⟨hfx, hnd2⟩
    by_cases hq : q (f x) = true
    · rw [List.map_cons] at h
      rw [List.filter_cons, if_pos hq] at h
      cases hS with
      | cons a hS2 =>
        exfalso
        have hmem : f x ∈ S.map f := by rw [h]; exact List.mem_cons_self _ _
        exact hfx ((hS2.map f).subset hmem)
      | cons₂ a hS2 =>
        rename_i S1
        rw [List.map_cons] at h
        have htl : S1.map f = (xs.map f).filter q := by
          injection h
        rw [List.filter_cons, if_pos hq, ih S1 hS2 hnd2 htl]
    · rw [List.map_cons] at h
      rw [List.filter_cons, if_neg hq] at h
      cases hS with
      | cons a hS2 =>
        rw [List.filter_cons, if_neg hq]
        exact ih S hS2 hnd2 h
      | cons₂ a hS2 =>
        rename_i S1
        exfalso
        rw [List.map_cons] at h
        have hmem : f x ∈ (xs.map f).filter q := by
          rw [← h]; exact List.mem_cons_self _ _
        exact hfx (List.mem_of_mem_filter hmem)

/-- Cancellation of a common prefix of string concatenation. -/
lemma string_append_left_cancel {p a b : String} (h : p ++ a = p ++ b) : a = b := by
  have hd : (p ++ a).data = (p ++ b).data := congrArg String.data h
  rw [String.data_append, String.data_append] at hd
  exact String.ext (List.append_cancel_left hd)

/-- Cursors built for accesses with different tensor names differ, because the
generated sink variable name embeds the tensor name after the fixed induction
variable name. -/
lemma mkCursor_inj (loop : IndexVariableLoop) {a b : Access}
    (h : mkCursor loop a = mkCursor loop b) : a.tensor = b.tensor := by
  have hs : (mkCursor loop a).sinkVar = (mkCursor loop b).sinkVar := congrArg TensorIndexVar.sinkVar h
  simp only [mkCursor, TensorIndexVar.make] at hs
  exact string_append_left_cancel (congrArg Var.name hs)

/-- Membership in the sparse access list. -/
lemma mem_sparseAccessList {e : IndexExpr} {a : Access} :
    a ∈ sparseAccessList e ↔ a ∈ allAccesses e ∧ a.isSparse = true := by
  simp [sparseAccessList, List.mem_dedup, List.mem_filter]

/-- The sparse access list is duplicate free. -/
lemma sparseAccessList_nodup (e : IndexExpr) : (sparseAccessList e).Nodup :=
  List.nodup_dedup _

/-- Under access consistency, the cursor list is duplicate free. -/
lemma expressionCursors_nodup (e : IndexExpr) (loop : IndexVariableLoop)
    (hcons : AccessesConsistent e) : (expressionCursors e loop).Nodup := by
  refine List.Nodup.map_on ?_ (sparseAccessList_nodup e)
  intro a ha b hb h
  exact hcons a (mem_sparseAccessList.mp ha).1 b (mem_sparseAccessList.mp hb).1 (mkCursor_inj loop h)

/-- The presence predicate on accesses factors the cursor predicate through
mkCursor. -/
lemma cursorAt_mkCursor (loop : IndexVariableLoop) (d : Data) (j : Nat) (a : Access) :
    cursorAt d j (mkCursor loop a) = decide (j ∈ d.nbrs a.tensorIndexOf) := rfl

/-- The cursors standing at coordinate j are exactly the cursors of the
accesses present at j. -/
lemma cursors_filter_eq (e : IndexExpr) (loop : IndexVariableLoop) (d : Data) (j : Nat) :
    (expressionCursors e loop).filter (cursorAt d j) = (presenceList e d j).map (mkCursor loop) := by
  rw [expressionCursors, presenceList, ← map_filter_comm]
  rfl

/-- Characterization of which emitted subset executes at coordinate j: among
the sublists of the sparse access list, exactly the presence list matches. -/
lemma subset_visit_iff (e : IndexExpr) (loop : IndexVariableLoop) (d : Data) (j : Nat)
    (hcons : AccessesConsistent e) (S : List Access)
    (hS : List.Sublist S (sparseAccessList e)) :
    S.map (mkCursor loop) = (expressionCursors e loop).filter (cursorAt d j)
      ↔ S = presenceList e d j := by
  constructor
  · intro h
    rw [expressionCursors] at h
    exact sublist_map_filter_eq (mkCursor loop) (cursorAt d j) (sparseAccessList e) S hS
      (expressionCursors_nodup e loop hcons) h
  · intro h
    subst h
    exact (cursors_filter_eq e loop d j).symm

/-- Running loops whose compound operator is Add accumulates their sums onto
the initial value. -/
lemma runLoops_all_add (U : List TensorIndexVar) (d : Data) (iv : Var) (n : Nat) :
    ∀ (ls : List SubsetLoop), (∀ sl ∈ ls, sl.cop = CompoundOperator.Add) →
      ∀ acc : Int, runLoops U d iv n ls acc
        = acc + (ls.map (fun sl => sl.loopSum U d iv n)).sum := by
  intro ls
  induction ls with
  | nil => intro _ acc; simp [runLoops]
  | cons x xs ih =>
    intro h acc
    have hx : x.cop = CompoundOperator.Add := h x (List.mem_cons_self _ _)
    simp only [runLoops, hx, applyCompound, List.map_cons, List.sum_cons]
    rw [ih (fun sl hsl => h sl (List.mem_cons_of_mem _ hsl))]
    rw [add_assoc]

/-- Running an assigned subset loop list from any initial value: the first loop
stores its sum and the rest accumulate, so the initial value is irrelevant and
the result is the total of all loop sums. -/
lemma runLoops_assign (U : List TensorIndexVar) (d : Data) (iv : Var) (n : Nat)
    (x : SubsetLoop) (xs : List SubsetLoop) (acc : Int)
    (hx : x.cop = CompoundOperator.None) :
    runLoops U d iv n (assignCompoundOps (x :: xs)) acc
      = ((x :: xs).map (fun sl => sl.loopSum U d iv n)).sum := by
  simp only [assignCompoundOps, runLoops, hx, applyCompound]
  rw [runLoops_all_add U d iv n _ ?hadd (x.loopSum U d iv n)]
  case hadd =>
    intro sl hsl
    rcases List.mem_map.mp hsl with ⟨y, _, rfl⟩
    rfl
  have hmaps : (xs.map (fun l => l.setCompoundOperator CompoundOperator.Add)).map
      (fun sl => sl.loopSum U d iv n) = xs.map (fun sl => sl.loopSum U d iv n) := by
    rw [List.map_map]; rfl
  rw [hmaps, List.map_cons, List.sum_cons]

/-- The total of the loop sums, reorganized as a per-coordinate sum. -/
lemma sum_loopSum_swap (U : List TensorIndexVar) (d : Data) (iv : Var) (n : Nat)
    (ls : List SubsetLoop) :
    (ls.map (fun sl => sl.loopSum U d iv n)).sum
      = Finset.sum (Finset.range n) (fun j =>
          (ls.map (fun sl =>
            if sl.visitsAt U d j then Expr.eval (storeAt d iv j) sl.computeExpr else 0)).sum) := by
  induction ls with
  | nil => simp
  | cons x xs ih =>
    simp only [List.map_cons, List.sum_cons]
    rw [ih, SubsetLoop.loopSum, ← Finset.sum_add_distrib]

/-- Mapping a summand invariant under the accumulate marking over an assigned
list gives the same total as over the unassigned list. -/
lemma assignCompoundOps_map_sum {M : Type} [AddCommMonoid M] (ls : List SubsetLoop)
    (f : SubsetLoop → M)
    (hf : ∀ sl, f (sl.setCompoundOperator CompoundOperator.Add) = f sl) :
    ((assignCompoundOps ls).map f).sum = (ls.map f).sum := by
  cases ls with
  | nil => rfl
  | cons x xs =>
    simp only [assignCompoundOps, List.map_cons, List.sum_cons, List.map_map]
    have : xs.map (f ∘ fun l => l.setCompoundOperator CompoundOperator.Add) = xs.map f :=
      List.map_congr_left (fun a _ => hf a)
    rw [this]

/-- Per coordinate, among the subset loops emitted for all non-empty subsets,
exactly the loop of the presence list executes: summing any loop functional
over the executing loops yields its value on the presence subset, or zero when
no sparse operand is present. -/
lemma subsets_ite_sum {M : Type} [AddCommMonoid M]
    (e : IndexExpr) (loop : IndexVariableLoop) (d : Data) (j : Nat)
    (hcons : AccessesConsistent e) (F : SubsetLoop → M) :
    (((nonEmptySublists (sparseAccessList e)).map (subsetLoopFor e loop)).map (fun sl =>
        if sl.visitsAt (expressionCursors e loop) d j then F sl else 0)).sum
      = if presenceList e d j = [] then 0
        else F (subsetLoopFor e loop (presenceList e d j)) := by
  rw [List.map_map]
  have h1 : (nonEmptySublists (sparseAccessList e)).map
        ((fun sl => if sl.visitsAt (expressionCursors e loop) d j then F sl else 0)
          ∘ subsetLoopFor e loop)
      = (nonEmptySublists (sparseAccessList e)).map
        (fun S => if S = presenceList e d j then F (subsetLoopFor e loop S) else 0) := by
    refine List.map_congr_left ?_
    intro S hS
    have hsub : List.Sublist S (sparseAccessList e) :=
      List.mem_sublists.mp (List.mem_filter.mp hS).1
    have hiff := subset_visit_iff e loop d j hcons S hsub
    show (if (subsetLoopFor e loop S).visitsAt (expressionCursors e loop) d j
        then F (subsetLoopFor e loop S) else 0) = _
    simp only [SubsetLoop.visitsAt, subsetLoopFor, SubsetLoop.make, decide_eq_true_eq]
    exact if_congr hiff rfl rfl
  rw [h1]
  have hnd : (nonEmptySublists (sparseAccessList e)).Nodup :=
    (List.nodup_sublists.mpr (sparseAccessList_nodup e)).filter _
  rw [sum_map_ite_unique (nonEmptySublists (sparseAccessList e)) hnd (presenceList e d j)
    (fun S => F (subsetLoopFor e loop S))]
  by_cases hp : presenceList e d j = []
  · rw [if_pos hp]
    have hnm : presenceList e d j ∉ nonEmptySublists (sparseAccessList e) := by
      intro hmem
      have := (List.mem_filter.mp hmem).2
      rw [hp] at this
      simp at this
    rw [if_neg hnm]
  · rw [if_neg hp]
    have hmem : presenceList e d j ∈ nonEmptySublists (sparseAccessList e) := by
      refine List.mem_filter.mpr ⟨List.mem_sublists.mpr (List.filter_sublist _), ?_⟩
      simpa using hp
    rw [if_pos hmem]

/-- Evaluating a rendered term at coordinate j gives the product of the raw
operand values at j. -/
lemma eval_renderTerm (d : Data) (iv : Var) (j : Nat) (t : Term) :
    Expr.eval (storeAt d iv j) (renderTerm iv t)
      = (t.map (fun a => d.vals a.tensor j)).prod := by
  induction t with
  | nil => simp [renderTerm, Expr.eval]
  | cons a as ih =>
    simp only [renderTerm, List.foldr_cons]
    simp only [renderTerm] at ih
    simp only [Expr.eval, List.map_cons, List.prod_cons]
    rw [ih]
    congr 1
    simp [storeAt, Int.toNat_natCast]

/-- Evaluating a rendered sum at coordinate j gives the sum of the raw term
products at j. -/
lemma eval_renderSum (d : Data) (iv : Var) (j : Nat) (ts : List Term) :
    Expr.eval (storeAt d iv j) (renderSum iv ts)
      = (ts.map (fun t => (t.map (fun a => d.vals a.tensor j)).prod)).sum := by
  induction ts with
  | nil => simp [renderSum, Expr.eval]
  | cons t ts2 ih =>
    simp only [renderSum, List.foldr_cons]
    simp only [renderSum] at ih
    simp [Expr.eval, eval_renderTerm, ih]

/-- Summing a mapped function over a filtered list, as a sum of guarded values
over the whole list. -/
lemma sum_map_filter_ite {α M : Type} [AddCommMonoid M] (l : List α) (q : α → Bool)
    (g : α → M) :
    ((l.filter q).map g).sum = (l.map (fun t => if q t then g t else 0)).sum := by
  induction l with
  | nil => rfl
  | cons x xs ih =>
    by_cases h : q x = true <;> simp [List.filter_cons, h, ih]

/-- An access of a term of the expression is an access of the expression. -/
lemma mem_allAccesses_of_mem_term {e : IndexExpr} {t : Term} {a : Access}
    (ht : t ∈ e.terms) (ha : a ∈ t) : a ∈ allAccesses e :=
  List.mem_flatten.mpr ⟨t, ht, ha⟩

/-- The masked product of one term equals the raw product when every sparse
operand the term requires is present at the coordinate, and zero otherwise. -/
lemma masked_term_eq (e : IndexExpr) (d : Data) (j : Nat) (hcons : AccessesConsistent e)
    (t : Term) (ht : t ∈ e.terms) :
    (t.map (fun a => maskedVal d a j)).prod
      = if coveredBy t ((presenceList e d j).map Access.tensor)
        then (t.map (fun a => d.vals a.tensor j)).prod else 0 := by
  by_cases hcov : coveredBy t ((presenceList e d j).map Access.tensor) = true
  · rw [if_pos hcov]
    refine congrArg List.prod (List.map_congr_left ?_)
    intro a ha
    by_cases hsp : a.isSparse = true
    · have hreq : a ∈ requiredSparse t := List.mem_filter.mpr ⟨ha, hsp⟩
      have hname : decide (a.tensor ∈ (presenceList e d j).map Access.tensor) = true :=
        List.all_eq_true.mp hcov a hreq
      rcases List.mem_map.mp (of_decide_eq_true hname) with ⟨b, hb, hbt⟩
      rcases List.mem_filter.mp hb with ⟨hbs, hbp⟩
      have hba : b = a :=
        hcons b (mem_sparseAccessList.mp hbs).1 a (mem_allAccesses_of_mem_term ht ha) hbt
      have hpres : j ∈ d.nbrs a.tensorIndexOf := by
        have := of_decide_eq_true hbp
        rwa [hba] at this
      simp [maskedVal, hpres]
    · simp [maskedVal, hsp]
  · rw [if_neg hcov]
    have hex : ∃ a ∈ requiredSparse t, ¬ a.tensor ∈ (presenceList e d j).map Access.tensor := by
      by_contra hno
      push_neg at hno
      exact hcov (List.all_eq_true.mpr (fun a hreq => decide_eq_true (hno a hreq)))
    rcases hex with ⟨a, hreq, hnot⟩
    rcases List.mem_filter.mp hreq with ⟨hat, hasp⟩
    have habsent : ¬ j ∈ d.nbrs a.tensorIndexOf := by
      intro hj
      apply hnot
      refine List.mem_map.mpr ⟨a, ?_, rfl⟩
      refine List.mem_filter.mpr ⟨?_, decide_eq_true hj⟩
      exact mem_sparseAccessList.mpr ⟨mem_allAccesses_of_mem_term ht hat, hasp⟩
    have hzero : maskedVal d a j = 0 := by simp [maskedVal, hasp, habsent]
    exact List.prod_eq_zero (List.mem_map.mpr ⟨a, hat, hzero⟩)

/-- Per coordinate, the direct masked sum over all terms equals the raw sum
over the terms covered by the presence subset; when no sparse operand is
present and every term requires one, it is zero. -/
lemma direct_summand_eq (e : IndexExpr) (loop : IndexVariableLoop) (d : Data) (j : Nat)
    (hcons : AccessesConsistent e)
    (hterms : ∀ t ∈ e.terms, requiredSparse t ≠ []) :
    (e.terms.map (fun t => (t.map (fun a => maskedVal d a j)).prod)).sum
      = if presenceList e d j = [] then 0
        else Expr.eval (storeAt d loop.getInductionVar j)
          (subsetLoopFor e loop (presenceList e d j)).computeExpr := by
  by_cases hp : presenceList e d j = []
  · rw [if_pos hp]
    refine List.sum_eq_zero ?_
    intro x hx
    rcases List.mem_map.mp hx with ⟨t, ht, rfl⟩
    rw [masked_term_eq e d j hcons t ht]
    rcases List.exists_mem_of_ne_nil _ (hterms t ht) with ⟨a, ha⟩
    have hfalse : ¬ coveredBy t ((presenceList e d j).map Access.tensor) = true := by
      intro hc
      have := of_decide_eq_true (List.all_eq_true.mp hc a ha)
      rw [hp] at this
      simp at this
    rw [if_neg hfalse]
  · rw [if_neg hp]
    show _ = Expr.eval (storeAt d loop.getInductionVar j)
      (renderSum loop.getInductionVar
        (e.terms.filter (fun t => coveredBy t ((presenceList e d j).map Access.tensor))))
    rw [eval_renderSum, sum_map_filter_ite]
    exact congrArg List.sum (List.map_congr_left (fun t ht => masked_term_eq e d j hcons t ht))

/-- C1: for every index expression within the scope of the lowering (either no
sparse operand shares the variable, or every term requires at least one sparse
operand) and every loop context, executing all returned subset loops in order,
combining each loop contribution with its compound operator starting from any
prior output value, yields exactly the direct unoptimized full-domain
evaluation of the expression on the same operand data. -/
theorem claimC1 (e : IndexExpr) (loop : IndexVariableLoop) (d : Data) (init : Int)
    (hcons : AccessesConsistent e)
    (hterms : sparseAccessList e ≠ [] → ∀ t ∈ e.terms, requiredSparse t ≠ []) :
    runLoops (expressionCursors e loop) d loop.getInductionVar loop.getIndexVar.domainSize
        (createSubsetLoops e loop) init
      = directEval e d loop.getIndexVar.domainSize := by
  by_cases hd : sparseAccessList e = []
  · have hloops : createSubsetLoops e loop
        = [SubsetLoop.make [] (renderSum loop.getInductionVar e.terms)
            (Expr.var loop.getInductionVar)] := by
      simp only [createSubsetLoops]
      rw [if_pos hd]
    have hU : expressionCursors e loop = [] := by
      rw [expressionCursors, hd]; rfl
    have hall : ∀ a ∈ allAccesses e, a.isSparse = false := by
      intro a ha
      have hfil : (allAccesses e).filter (fun a => a.isSparse) = [] :=
        (List.dedup_eq_nil _).mp hd
      have := List.filter_eq_nil_iff.mp hfil a ha
      exact Bool.not_eq_true _ ▸ this
    rw [hloops, hU]
    simp only [runLoops, SubsetLoop.make, applyCompound]
    rw [SubsetLoop.loopSum, directEval]
    refine Finset.sum_congr rfl (fun j hj => ?_)
    have hvis : (SubsetLoop.mk [] CompoundOperator.None
        (renderSum loop.getInductionVar e.terms)
        (Expr.var loop.getInductionVar)).visitsAt [] d j = true := by
      simp [SubsetLoop.visitsAt]
    rw [if_pos hvis]
    show Expr.eval (storeAt d loop.getInductionVar j)
        (renderSum loop.getInductionVar e.terms) = _
    rw [eval_renderSum]
    refine congrArg List.sum (List.map_congr_left (fun t ht => ?_))
    refine congrArg List.prod (List.map_congr_left (fun a ha => ?_))
    have := hall a (mem_allAccesses_of_mem_term ht ha)
    simp [maskedVal, this]
  · have hterms2 := hterms hd
    have hform : createSubsetLoops e loop
        = assignCompoundOps ((nonEmptySublists (sparseAccessList e)).map (subsetLoopFor e loop)) := by
      simp only [createSubsetLoops]
      rw [if_neg hd]
    have hmemS : sparseAccessList e ∈ nonEmptySublists (sparseAccessList e) :=
      List.mem_filter.mpr ⟨List.mem_sublists.mpr (List.Sublist.refl _), by simpa using hd⟩
    have hnil : (nonEmptySublists (sparseAccessList e)).map (subsetLoopFor e loop) ≠ [] := by
      intro h0
      rw [List.map_eq_nil_iff] at h0
      rw [h0] at hmemS
      simp at hmemS
    obtain ⟨x, xs, hxx⟩ := List.exists_cons_of_ne_nil hnil
    have hxcop : x.cop = CompoundOperator.None := by
      have hx : x ∈ (nonEmptySublists (sparseAccessList e)).map (subsetLoopFor e loop) := by
        rw [hxx]; exact List.mem_cons_self _ _
      rcases List.mem_map.mp hx with ⟨S, _, rfl⟩
      rfl
    rw [hform, hxx, runLoops_assign _ _ _ _ x xs init hxcop, ← hxx, sum_loopSum_swap,
      directEval]
    refine Finset.sum_congr rfl (fun j hj => ?_)
    rw [subsets_ite_sum e loop d j hcons
      (fun sl => Expr.eval (storeAt d loop.getInductionVar j) sl.computeExpr)]
    exact (direct_summand_eq e loop d j hcons hterms2).symm

/-- C2: for an index expression all of whose operands are dense,
createSubsetLoops returns exactly one subset loop, its tensor index variable
list is empty, its compute expression is the full term sum, and it executes at
every coordinate of the static domain. -/
theorem claimC2 (e : IndexExpr) (loop : IndexVariableLoop)
    (hdense : ∀ t ∈ e.terms, ∀ a ∈ t, a.isSparse = false) :
    createSubsetLoops e loop
      = [SubsetLoop.make [] (renderSum loop.getInductionVar e.terms)
          (Expr.var loop.getInductionVar)]
    ∧ (createSubsetLoops e loop).length = 1
    ∧ (∀ sl ∈ createSubsetLoops e loop, sl.getTensorIndexVars = []
        ∧ sl.getComputeExpression = renderSum loop.getInductionVar e.terms)
    ∧ (∀ sl ∈ createSubsetLoops e loop, ∀ d : Data, ∀ j : Nat,
        sl.visitsAt (expressionCursors e loop) d j = true) := by
  have hall : ∀ a ∈ allAccesses e, a.isSparse = false := by
    intro a ha
    rcases List.mem_flatten.mp ha with ⟨t, ht, hat⟩
    exact hdense t ht a hat
  have hd : sparseAccessList e = [] := by
    rw [sparseAccessList]
    have hfil : (allAccesses e).filter (fun a => a.isSparse) = [] :=
      List.filter_eq_nil_iff.mpr (fun a ha => by simp [hall a ha])
    rw [hfil]
    rfl
  have hloops : createSubsetLoops e loop
      = [SubsetLoop.make [] (renderSum loop.getInductionVar e.terms)
          (Expr.var loop.getInductionVar)] := by
    simp only [createSubsetLoops]
    rw [if_pos hd]
  have hU : expressionCursors e loop = [] := by
    rw [expressionCursors, hd]; rfl
  refine ⟨hloops, by rw [hloops]; rfl, ?_, ?_⟩
  · intro sl hsl
    rw [hloops] at hsl
    have := List.mem_singleton.mp hsl
    subst this
    exact ⟨rfl, rfl⟩
  · intro sl hsl d j
    rw [hloops] at hsl
    have := List.mem_singleton.mp hsl
    subst this
    rw [hU]
    simp [SubsetLoop.visitsAt, SubsetLoop.make]

/-- Under access consistency, the number of emitted subset loops executing at a
coordinate is one in the dense case, and in the sparse case zero or one
according to whether some sparse operand is present there. -/
lemma visitCount_eq (e : IndexExpr) (loop : IndexVariableLoop) (d : Data) (j : Nat)
    (hcons : AccessesConsistent e) :
    visitCount (createSubsetLoops e loop) (expressionCursors e loop) d j
      = if sparseAccessList e = [] then 1
        else if presenceList e d j = [] then 0 else 1 := by
  by_cases hd : sparseAccessList e = []
  · rw [if_pos hd]
    have hloops : createSubsetLoops e loop
        = [SubsetLoop.make [] (renderSum loop.getInductionVar e.terms)
            (Expr.var loop.getInductionVar)] := by
      simp only [createSubsetLoops]
      rw [if_pos hd]
    have hU : expressionCursors e loop = [] := by
      rw [expressionCursors, hd]; rfl
    rw [hloops, hU, visitCount]
    simp [SubsetLoop.visitsAt, SubsetLoop.make]
  · rw [if_neg hd]
    have hform : createSubsetLoops e loop
        = assignCompoundOps ((nonEmptySublists (sparseAccessList e)).map (subsetLoopFor e loop)) := by
      simp only [createSubsetLoops]
      rw [if_neg hd]
    rw [visitCount, hform, assignCompoundOps_map_sum _ (fun sl =>
      if sl.visitsAt (expressionCursors e loop) d j then 1 else 0) (fun sl => rfl)]
    exact subsets_ite_sum e loop d j hcons (fun _ => 1)

/-- The compound operators of an assigned non-empty loop list: the head keeps
its operator and every later loop accumulates. -/
lemma assignCompoundOps_cops (x : SubsetLoop) (xs : List SubsetLoop) :
    (assignCompoundOps (x :: xs)).map SubsetLoop.getCompoundOperator
      = x.cop :: List.replicate xs.length CompoundOperator.Add := by
  simp only [assignCompoundOps, List.map_cons, List.map_map]
  have h2 : xs.map (SubsetLoop.getCompoundOperator ∘ fun l =>
      l.setCompoundOperator CompoundOperator.Add)
      = List.replicate xs.length CompoundOperator.Add := by
    refine List.eq_replicate_iff.mpr ⟨by simp, ?_⟩
    intro b hb
    rcases List.mem_map.mp hb with ⟨y, _, rfl⟩
    rfl
  rw [h2]
  rfl

/-- Membership in an assigned loop list, with the operator-independent fields
preserved. -/
lemma mem_assignCompoundOps {ls : List SubsetLoop} {sl : SubsetLoop}
    (h : sl ∈ assignCompoundOps ls) :
    ∃ l ∈ ls, sl.getTensorIndexVars = l.getTensorIndexVars
      ∧ sl.getComputeExpression = l.getComputeExpression
      ∧ sl.getIndexExpression = l.getIndexExpression := by
  cases ls with
  | nil => simp [assignCompoundOps] at h
  | cons x xs =>
    simp only [assignCompoundOps, List.mem_cons] at h
    rcases h with h | h
    · exact ⟨x, List.mem_cons_self _ _, by rw [h], by rw [h], by rw [h]⟩
    · rcases List.mem_map.mp h with ⟨y, hy, rfl⟩
      exact ⟨y, List.mem_cons_of_mem _ hy, rfl, rfl, rfl⟩

/-- Every tensor index variable of an emitted subset loop is the cursor of one
of the sparse accesses of the expression. -/
lemma createSubsetLoops_tiv_mem (e : IndexExpr) (loop : IndexVariableLoop) :
    ∀ sl ∈ createSubsetLoops e loop, ∀ t ∈ sl.getTensorIndexVars,
      ∃ a ∈ sparseAccessList e, t = mkCursor loop a := by
  intro sl hsl t ht
  by_cases hd : sparseAccessList e = []
  · have hloops : createSubsetLoops e loop
        = [SubsetLoop.make [] (renderSum loop.getInductionVar e.terms)
            (Expr.var loop.getInductionVar)] := by
      simp only [createSubsetLoops]
      rw [if_pos hd]
    rw [hloops] at hsl
    have := List.mem_singleton.mp hsl
    subst this
    simp [SubsetLoop.getTensorIndexVars, SubsetLoop.make] at ht
  · have hform : createSubsetLoops e loop
        = assignCompoundOps ((nonEmptySublists (sparseAccessList e)).map (subsetLoopFor e loop)) := by
      simp only [createSubsetLoops]
      rw [if_neg hd]
    rw [hform] at hsl
    rcases mem_assignCompoundOps hsl with ⟨l, hl, htiv, _, _⟩
    rcases List.mem_map.mp hl with ⟨S, hS, rfl⟩
    rw [htiv] at ht
    simp only [subsetLoopFor, SubsetLoop.make, SubsetLoop.getTensorIndexVars] at ht
    rcases List.mem_map.mp ht with ⟨a, haS, rfl⟩
    have hsub : List.Sublist S (sparseAccessList e) :=
      List.mem_sublists.mp (List.mem_filter.mp hS).1
    exact ⟨a, hsub.subset haS, rfl⟩

/-- C3: the first subset loop of the emitted sequence carries the plain store
operator None and every subsequent loop carries the accumulate operator Add;
all loops address the output at the same merged sink position, and the loops
jointly execute at every required coordinate exactly once: once per coordinate
in the dense case, and in the sparse case exactly once at every coordinate
where some sparse operand is present and never elsewhere. -/
theorem claimC3 (e : IndexExpr) (loop : IndexVariableLoop) (d : Data)
    (hcons : AccessesConsistent e) :
    ((createSubsetLoops e loop).map SubsetLoop.getCompoundOperator
      = CompoundOperator.None
          :: List.replicate ((createSubsetLoops e loop).length - 1) CompoundOperator.Add)
    ∧ (∀ sl ∈ createSubsetLoops e loop,
        sl.getIndexExpression = Expr.var loop.getInductionVar)
    ∧ (∀ j : Nat, visitCount (createSubsetLoops e loop) (expressionCursors e loop) d j
        = if sparseAccessList e = [] then 1
          else if presenceList e d j = [] then 0 else 1) := by
  refine ⟨?_, ?_, fun j => visitCount_eq e loop d j hcons⟩
  · by_cases hd : sparseAccessList e = []
    · have hloops : createSubsetLoops e loop
          = [SubsetLoop.make [] (renderSum loop.getInductionVar e.terms)
              (Expr.var loop.getInductionVar)] := by
        simp only [createSubsetLoops]
        rw [if_pos hd]
      rw [hloops]
      rfl
    · have hform : createSubsetLoops e loop
          = assignCompoundOps ((nonEmptySublists (sparseAccessList e)).map (subsetLoopFor e loop)) := by
        simp only [createSubsetLoops]
        rw [if_neg hd]
      have hmemS : sparseAccessList e ∈ nonEmptySublists (sparseAccessList e) :=
        List.mem_filter.mpr ⟨List.mem_sublists.mpr (List.Sublist.refl _), by simpa using hd⟩
      have hnil : (nonEmptySublists (sparseAccessList e)).map (subsetLoopFor e loop) ≠ [] := by
        intro h0
        rw [List.map_eq_nil_iff] at h0
        rw [h0] at hmemS
        simp at hmemS
      obtain ⟨x, xs, hxx⟩ := List.exists_cons_of_ne_nil hnil
      have hxcop : x.cop = CompoundOperator.None := by
        have hx : x ∈ (nonEmptySublists (sparseAccessList e)).map (subsetLoopFor e loop) := by
          rw [hxx]; exact List.mem_cons_self _ _
        rcases List.mem_map.mp hx with ⟨S, _, rfl⟩
        rfl
      rw [hform, hxx, assignCompoundOps_cops, hxcop]
      have hlen : (assignCompoundOps (x :: xs)).length = xs.length + 1 := by
        simp [assignCompoundOps]
      rw [hlen]
      simp
  · intro sl hsl
    by_cases hd : sparseAccessList e = []
    · have hloops : createSubsetLoops e loop
          = [SubsetLoop.make [] (renderSum loop.getInductionVar e.terms)
              (Expr.var loop.getInductionVar)] := by
        simp only [createSubsetLoops]
        rw [if_pos hd]
      rw [hloops] at hsl
      have := List.mem_singleton.mp hsl
      subst this
      rfl
    · have hform : createSubsetLoops e loop
          = assignCompoundOps ((nonEmptySublists (sparseAccessList e)).map (subsetLoopFor e loop)) := by
        simp only [createSubsetLoops]
        rw [if_neg hd]
      rw [hform] at hsl
      rcases mem_assignCompoundOps hsl with ⟨l, hl, _, _, hidx⟩
      rcases List.mem_map.mp hl with ⟨S, _, rfl⟩
      rw [hidx]
      rfl

/-- Second concrete tensor index handle, for the operand B. -/
def tiB : TensorIndex := TensorIndex.mk (Var.mk "B_coords") (Var.mk "B_sinks")

/-- Sparse access to A backed by its tensor index. -/
def accA4 : Access := Access.mk "A" (some tiA)

/-- Sparse access to B backed by its tensor index. -/
def accB4 : Access := Access.mk "B" (some tiB)

/-- The expression of spec section 8 scenario 2: a sum of two terms, each a
single sparse operand read. -/
def exprC4 : IndexExpr := IndexExpr.mk [[accA4], [accB4]]

/-- Runtime data of scenario 2: A neighbors of the current source are [1, 3]
and B neighbors are [2, 3]. -/
def d4 : Data :=
  { vals := fun nm jj => if nm = "A" then (10 : Int) + jj else if nm = "B" then 100 + jj else 0
    nbrs := fun t => if t = tiA then [1, 3] else if t = tiB then [2, 3] else [] }

/-- C4: for the union of two sparse operands with A neighbors [1, 3] and B
neighbors [2, 3], the emitted subset loops collectively execute at coordinates
1, 2 and 3 exactly once each and nowhere else on the domain, and coordinate 3
is handled by a single subset loop whose compute expression is the rendered
sum of both terms, reading A and B in one step rather than accumulating twice
at the same output location. -/
theorem claimC4 :
    visitCount (createSubsetLoops exprC4 loopJ) (expressionCursors exprC4 loopJ) d4 0 = 0
    ∧ visitCount (createSubsetLoops exprC4 loopJ) (expressionCursors exprC4 loopJ) d4 1 = 1
    ∧ visitCount (createSubsetLoops exprC4 loopJ) (expressionCursors exprC4 loopJ) d4 2 = 1
    ∧ visitCount (createSubsetLoops exprC4 loopJ) (expressionCursors exprC4 loopJ) d4 3 = 1
    ∧ ((createSubsetLoops exprC4 loopJ).filter
        (fun sl => sl.visitsAt (expressionCursors exprC4 loopJ) d4 3)).length = 1
    ∧ ((createSubsetLoops exprC4 loopJ).filter
        (fun sl => sl.visitsAt (expressionCursors exprC4 loopJ) d4 3)).map
          SubsetLoop.getComputeExpression
      = [renderSum loopJ.getInductionVar exprC4.terms] := by
  refine ⟨?_, ?_, ?_, ?_, ?_, ?_⟩ <;> decide

/-- C1 witness at scenario 2: executing the loops lowered from the two-operand
sum, from the prior output value 7, equals direct evaluation. -/
theorem claimC1_witness :
    runLoops (expressionCursors exprC4 loopJ) d4 loopJ.getInductionVar
        loopJ.getIndexVar.domainSize (createSubsetLoops exprC4 loopJ) 7
      = directEval exprC4 d4 loopJ.getIndexVar.domainSize :=
  claimC1 exprC4 loopJ d4 7 (by decide) (by decide)

/-- Dense expression with two dense operand terms. -/
def exprDense : IndexExpr := IndexExpr.mk [[Access.mk "u" none], [Access.mk "w" none]]

/-- C2 witness: the dense expression lowers to exactly the one dense subset
loop. -/
theorem claimC2_witness :
    createSubsetLoops exprDense loopJ
      = [SubsetLoop.make [] (renderSum loopJ.getInductionVar exprDense.terms)
          (Expr.var loopJ.getInductionVar)] :=
  (claimC2 exprDense loopJ (by decide)).1

/-- C3 witness at scenario 2: the operator sequence is store first then
accumulate, and coordinate 3 is covered exactly once. -/
theorem claimC3_witness :
    ((createSubsetLoops exprC4 loopJ).map SubsetLoop.getCompoundOperator
      = CompoundOperator.None
          :: List.replicate ((createSubsetLoops exprC4 loopJ).length - 1) CompoundOperator.Add)
    ∧ visitCount (createSubsetLoops exprC4 loopJ) (expressionCursors exprC4 loopJ) d4 3 = 1 := by
  have h := claimC3 exprC4 loopJ d4 (by decide)
  exact ⟨h.1, (h.2.2 3).trans (by decide)⟩

/-- Sparse access to A with a parameterized tensor index, for the linked-loop
expression. -/
def accA5 (ti : TensorIndex) : Access := Access.mk "A" (some ti)

/-- Dense access to the vector b. -/
def accb5 : Access := Access.mk "b" none

/-- The expression of the linked-loop property: one multiplicative term
A[i,j] * b[j] under the index variable j. -/
def exprC5 (ti : TensorIndex) : IndexExpr := IndexExpr.mk [[accA5 ti, accb5]]

/-- C5: for c[i] = sum of A[i,j] * b[j] over j, with the loop over j linked to
the parent loop over i through the tensor index of A, every created tensor
index variable is keyed by the parent induction variable i and carries the
tensor index of A, and for the current source value s the subset loops execute
exactly once at each coordinate of sinks[coords[s] .. coords[s + 1]) and never
elsewhere, so the visited coordinates are the neighbor range of s, not the
static domain of j. -/
theorem claimC5 (ti : TensorIndex) (tid : TensorIndexData) (s : Nat) (d : Data)
    (hnb : d.nbrs ti = tid.neighbors s) :
    (∀ sl ∈ createSubsetLoops (exprC5 ti) loopJ, ∀ t ∈ sl.getTensorIndexVars,
        t.sourceVar = loopI.getInductionVar ∧ t.tensorIndex = ti)
    ∧ (∀ j : Nat, visitCount (createSubsetLoops (exprC5 ti) loopJ)
          (expressionCursors (exprC5 ti) loopJ) d j
        = if j ∈ tid.neighbors s then 1 else 0) := by
  have hcons : AccessesConsistent (exprC5 ti) := by
    intro a ha b hb hab
    simp only [allAccesses, exprC5] at ha hb
    simp only [List.flatten, List.append_nil, List.mem_cons, List.mem_singleton,
      List.not_mem_nil, or_false] at ha hb
    rcases ha with rfl | rfl <;> rcases hb with rfl | rfl <;>
      first
      | rfl
      | (exfalso; simp [accA5, accb5] at hab)
  have hsops : sparseAccessList (exprC5 ti) = [accA5 ti] := by
    simp [sparseAccessList, allAccesses, exprC5, accA5, accb5, Access.isSparse]
  constructor
  · intro sl hsl t ht
    rcases createSubsetLoops_tiv_mem (exprC5 ti) loopJ sl hsl t ht with ⟨a, haS, rfl⟩
    rw [hsops] at haS
    have := List.mem_singleton.mp haS
    subst this
    exact ⟨rfl, rfl⟩
  · intro j
    rw [visitCount_eq (exprC5 ti) loopJ d j hcons]
    rw [if_neg (by rw [hsops]; simp)]
    have hpres : presenceList (exprC5 ti) d j
        = (if j ∈ d.nbrs ti then [accA5 ti] else []) := by
      rw [presenceList, hsops]
      by_cases hj : j ∈ d.nbrs ti
      · rw [if_pos hj]
        simp [accA5, Access.tensorIndexOf, hj]
      · rw [if_neg hj]
        simp [accA5, Access.tensorIndexOf, hj]
    rw [hpres, hnb]
    by_cases hj : j ∈ tid.neighbors s
    · rw [if_pos hj, if_pos hj]
      simp
    · rw [if_neg hj, if_neg hj]
      simp

/-- Runtime data realizing scenario 1 for the current source value 0 of the
tensor index of A: the neighbor slice sinks[coords[0] .. coords[1]) = [1, 2]. -/
def d5 : Data :=
  { vals := fun _ _ => 0
    nbrs := fun t => if t = tiA then [1, 2] else [] }

/-- C5 witness at scenario 1, source 0: coordinate 1 is visited once and
coordinate 0, inside the static domain but outside the neighbor range, is
never visited. -/
theorem claimC5_witness :
    visitCount (createSubsetLoops (exprC5 tiA) loopJ)
        (expressionCursors (exprC5 tiA) loopJ) d5 1 = 1
    ∧ visitCount (createSubsetLoops (exprC5 tiA) loopJ)
        (expressionCursors (exprC5 tiA) loopJ) d5 0 = 0 := by
  have h := claimC5 tiA tidA 0 d5 (by decide)
  exact ⟨(h.2 1).trans (by decide), (h.2 0).trans (by decide)⟩

/-- C8: the subset loop sequence is a deterministic function of the expression
shape and the naming context of the loop: two lowerings of equal expressions
under loops agreeing on the generated induction variable and on the merge
source variable return identical sequences, independently of any runtime data,
which a shallow embedding expresses by createSubsetLoops taking no data
argument at all. -/
theorem claimC8 (e1 e2 : IndexExpr) (l1 l2 : IndexVariableLoop)
    (he : e1 = e2) (hiv : l1.getInductionVar = l2.getInductionVar)
    (hsv : l1.mergeSourceVar = l2.mergeSourceVar) :
    createSubsetLoops e1 l1 = createSubsetLoops e2 l2 := by
  subst he
  have hcur : mkCursor l1 = mkCursor l2 := by
    funext a
    simp only [mkCursor]
    rw [hiv, hsv]
  have hfun : subsetLoopFor e1 l1 = subsetLoopFor e1 l2 := by
    funext S
    simp only [subsetLoopFor]
    rw [hiv, hcur]
  simp only [createSubsetLoops]
  rw [hiv, hfun]

/-- Loop over j with the same structure as loopJ but a different object: the
wrapped index variable differs in its domain size tag, which the lowering
never reads. -/
def loopJalt : IndexVariableLoop := IndexVariableLoop.linked (IndexVar.mk "j" 99 true) loopI

/-- C8 witness: lowering scenario 2 under the two distinct but structurally
identical loop objects returns identical subset loop sequences. -/
theorem claimC8_witness : createSubsetLoops exprC4 loopJ = createSubsetLoops exprC4 loopJalt :=
  claimC8 exprC4 exprC4 loopJ loopJalt rfl rfl rfl
